import Mathlib

/-!
Verification of the comment scanner in `src/tools/strip_comments.py`.

The scanner is a single-pass state machine over a character buffer with five
modes (`NORMAL`, `LINE`, `BLOCK`, `STRING`, `CHAR`), a remembered string
delimiter and an escape-pending flag.  We embed it twice, faithfully to the
source:

* `stripLoop` — a structurally recursive rendering of the `while i < n` loop,
  where the remaining suffix of the buffer plays the role of the cursor; the
  two-character lookahead of the source (`text[i + 1]`) becomes a pattern
  match on the tail.
* `stripStep` / `stripRun` — the literal index-based loop body (one iteration
  of the `while` loop at cursor `i`) iterated with explicit fuel; we prove it
  agrees with `stripLoop` and that fuel `n` always suffices, which is the
  termination argument of the source loop.
-/

namespace StripComments

/-- The five scanner modes, `NORMAL, LINE, BLOCK, STRING, CHAR = range(5)`. -/
inductive Mode : Type
  | NORMAL
  | LINE
  | BLOCK
  | STRING
  | CHAR
  deriving DecidableEq, Repr

open Mode

/-- The mutable scanner state of the loop: current mode, the remembered
string delimiter `str_delim`, and the escape-pending flag `escape`. -/
structure ScanState : Type where
  state : Mode
  str_delim : Char
  escape : Bool
  deriving DecidableEq, Repr

/-- Initial state: `state = NORMAL`, `str_delim = '"'`, `escape = False`. -/
def initState : ScanState :=
  { state := NORMAL, str_delim := '"', escape := false }

/-- The scanner loop of `strip_comments`, with the remaining input suffix as
the cursor.  Each equation is one iteration of the Python `while` loop; the
lookahead guard `i + 1 < n` of the source becomes the split between the
one-character
case (no lookahead available: in the last iteration `NORMAL` always copies
the character, `LINE` emits a newline exactly on `'\n'`, `BLOCK` cannot see
a two-character `*/` so it discards, and the literal modes copy) and the
two-or-more case, where `nxt` is `text[i + 1]`. -/
def stripLoop : ScanState → List Char → List Char
  | _, [] => []
  | s, [ch] =>
    match s.state with
    | NORMAL => [ch]
    | LINE => if ch = '\n' then ['\n'] else []
    | BLOCK => []
    | STRING => [ch]
    | CHAR => [ch]
  | s, ch :: nxt :: rest2 =>
    match s.state with
    | NORMAL =>
      if ch = '"' then
        ch :: stripLoop { s with state := STRING, str_delim := '"' } (nxt :: rest2)
      else if ch = '\'' then
        ch :: stripLoop { s with state := CHAR, str_delim := '\'' } (nxt :: rest2)
      else if ch = '/' then
        if nxt = '/' then
          stripLoop { s with state := LINE } rest2
        else if nxt = '*' then
          stripLoop { s with state := BLOCK } rest2
        else
          ch :: stripLoop s (nxt :: rest2)
      else
        ch :: stripLoop s (nxt :: rest2)
    | LINE =>
      if ch = '\n' then
        '\n' :: stripLoop { s with state := NORMAL } (nxt :: rest2)
      else
        stripLoop s (nxt :: rest2)
    | BLOCK =>
      if ch = '*' ∧ nxt = '/' then
        stripLoop { s with state := NORMAL } rest2
      else
        stripLoop s (nxt :: rest2)
    | STRING =>
      ch ::
        stripLoop
          (if s.escape then { s with escape := false }
           else if ch = '\\' then { s with escape := true }
           else if ch = s.str_delim then { s with state := NORMAL }
           else s)
          (nxt :: rest2)
    | CHAR =>
      ch ::
        stripLoop
          (if s.escape then { s with escape := false }
           else if ch = '\\' then { s with escape := true }
           else if ch = s.str_delim then { s with state := NORMAL }
           else s)
          (nxt :: rest2)
termination_by structural _ l => l

/-- Worker entry point `strip_comments(text)`: run the scanner from the
initial state over the whole buffer. -/
def strip_comments (text : String) : String :=
  ⟨stripLoop initState text.data⟩

/-- One iteration of the `while i < n` loop at cursor `i` (assuming
`i < text.length`): returns the updated state, the updated cursor, and the
characters appended to `out` during this iteration. -/
def stripStep (text : List Char) (s : ScanState) (i : Nat) :
    ScanState × Nat × List Char :=
  let n := text.length
  let ch := text.getD i ' '
  match s.state with
  | NORMAL =>
    if ch = '"' then
      ({ s with state := STRING, str_delim := '"' }, i + 1, [ch])
    else if ch = '\'' then
      ({ s with state := CHAR, str_delim := '\'' }, i + 1, [ch])
    else if ch = '/' then
      if i + 1 < n then
        if text.getD (i + 1) ' ' = '/' then
          ({ s with state := LINE }, i + 2, [])
        else if text.getD (i + 1) ' ' = '*' then
          ({ s with state := BLOCK }, i + 2, [])
        else
          (s, i + 1, [ch])
      else
        (s, i + 1, [ch])
    else
      (s, i + 1, [ch])
  | LINE =>
    if ch = '\n' then
      ({ s with state := NORMAL }, i + 1, ['\n'])
    else
      (s, i + 1, [])
  | BLOCK =>
    if ch = '*' ∧ i + 1 < n ∧ text.getD (i + 1) ' ' = '/' then
      ({ s with state := NORMAL }, i + 2, [])
    else
      (s, i + 1, [])
  | STRING =>
    (if s.escape then { s with escape := false }
     else if ch = '\\' then { s with escape := true }
     else if ch = s.str_delim then { s with state := NORMAL }
     else s, i + 1, [ch])
  | CHAR =>
    (if s.escape then { s with escape := false }
     else if ch = '\\' then { s with escape := true }
     else if ch = s.str_delim then { s with state := NORMAL }
     else s, i + 1, [ch])

/-- The `while i < n` loop iterated via `stripStep`, with explicit fuel.
The source loop has no fuel; `stripRun_eq_stripLoop` shows any fuel of at
least `n` steps yields the completed scan, which is the termination argument
for the source loop. -/
def stripRun (text : List Char) : Nat → ScanState → Nat → List Char
  | 0, _, _ => []
  | fuel + 1, s, i =>
    if i < text.length then
      let r := stripStep text s i
      r.2.2 ++ stripRun text fuel r.1 r.2.1
    else []

/-- The (state, cursor) configurations reachable during the scan of `text`:
the initial configuration, closed under loop iterations taken while
`i < text.length`. -/
inductive Reaches (text : List Char) : ScanState × Nat → Prop
  | init : Reaches text (initState, 0)
  | step {s : ScanState} {i : Nat} :
      Reaches text (s, i) → i < text.length →
      Reaches text ((stripStep text s i).1, (stripStep text s i).2.1)

/-- Predicate used to state the end-of-buffer claims: `true` iff the buffer
contains an occurrence of the closing delimiter `*/` (adjacent `'*'` then
`'/'`). -/
def hasBlockClose : List Char → Bool
  | [] => false
  | [_] => false
  | ch :: nxt :: rest2 => (ch == '*' && nxt == '/') || hasBlockClose (nxt :: rest2)
termination_by structural l => l

/-! ### One-iteration unfolding lemmas

These restate one iteration of the loop uniformly over a `ch :: rest`
buffer, merging the `[ch]` and `ch :: nxt :: rest2` defining equations. -/

theorem stripLoop_nil (s : ScanState) : stripLoop s [] = [] := rfl

theorem stripLoop_string_cons (d : Char) (e : Bool) (ch : Char)
    (rest : List Char) :
    stripLoop ⟨STRING, d, e⟩ (ch :: rest) =
      ch ::
        stripLoop
          (if e then ⟨STRING, d, false⟩
           else if ch = '\\' then ⟨STRING, d, true⟩
           else if ch = d then ⟨NORMAL, d, false⟩
           else ⟨STRING, d, false⟩)
          rest := by
  cases rest with
  | nil => cases e <;> simp [stripLoop]
  | cons nxt rest2 => cases e <;> simp [stripLoop]

theorem stripLoop_char_cons (d : Char) (e : Bool) (ch : Char)
    (rest : List Char) :
    stripLoop ⟨CHAR, d, e⟩ (ch :: rest) =
      ch ::
        stripLoop
          (if e then ⟨CHAR, d, false⟩
           else if ch = '\\' then ⟨CHAR, d, true⟩
           else if ch = d then ⟨NORMAL, d, false⟩
           else ⟨CHAR, d, false⟩)
          rest := by
  cases rest with
  | nil => cases e <;> simp [stripLoop]
  | cons nxt rest2 => cases e <;> simp [stripLoop]

theorem stripLoop_line_cons (d : Char) (e : Bool) (ch : Char)
    (rest : List Char) :
    stripLoop ⟨LINE, d, e⟩ (ch :: rest) =
      if ch = '\n' then '\n' :: stripLoop ⟨NORMAL, d, e⟩ rest
      else stripLoop ⟨LINE, d, e⟩ rest := by
  cases rest with
  | nil => simp only [stripLoop]
  | cons nxt rest2 => simp only [stripLoop]

theorem stripLoop_block_close (d : Char) (e : Bool) (rest2 : List Char) :
    stripLoop ⟨BLOCK, d, e⟩ ('*' :: '/' :: rest2) =
      stripLoop ⟨NORMAL, d, e⟩ rest2 := by
  simp [stripLoop]

theorem stripLoop_block_skip (d : Char) (e : Bool) (ch : Char)
    (rest : List Char) (h : ¬(ch = '*' ∧ rest.head? = some '/')) :
    stripLoop ⟨BLOCK, d, e⟩ (ch :: rest) = stripLoop ⟨BLOCK, d, e⟩ rest := by
  cases rest with
  | nil => rfl
  | cons nxt rest2 =>
    simp only [List.head?] at h
    have h' : ¬(ch = '*' ∧ nxt = '/') := by
      intro hc
      exact h ⟨hc.1, by rw [hc.2]⟩
    simp only [stripLoop, if_neg h']

theorem stripLoop_normal_dquote (d : Char) (e : Bool) (rest : List Char) :
    stripLoop ⟨NORMAL, d, e⟩ ('"' :: rest) =
      '"' :: stripLoop ⟨STRING, '"', e⟩ rest := by
  cases rest with
  | nil => rfl
  | cons nxt rest2 => simp [stripLoop]

theorem stripLoop_normal_squote (d : Char) (e : Bool) (rest : List Char) :
    stripLoop ⟨NORMAL, d, e⟩ ('\'' :: rest) =
      '\'' :: stripLoop ⟨CHAR, '\'', e⟩ rest := by
  cases rest with
  | nil => rfl
  | cons nxt rest2 => simp [stripLoop]

theorem stripLoop_normal_other (d : Char) (e : Bool) (ch : Char)
    (rest : List Char) (h1 : ch ≠ '"') (h2 : ch ≠ '\'') (h3 : ch ≠ '/') :
    stripLoop ⟨NORMAL, d, e⟩ (ch :: rest) =
      ch :: stripLoop ⟨NORMAL, d, e⟩ rest := by
  cases rest with
  | nil => simp [stripLoop, h1, h2, h3]
  | cons nxt rest2 => simp [stripLoop, h1, h2, h3]

theorem stripLoop_normal_slash_nil (d : Char) (e : Bool) :
    stripLoop ⟨NORMAL, d, e⟩ ['/'] = ['/'] := rfl

theorem stripLoop_normal_slash_line (d : Char) (e : Bool)
    (rest2 : List Char) :
    stripLoop ⟨NORMAL, d, e⟩ ('/' :: '/' :: rest2) =
      stripLoop ⟨LINE, d, e⟩ rest2 := by
  simp [stripLoop]

theorem stripLoop_normal_slash_block (d : Char) (e : Bool)
    (rest2 : List Char) :
    stripLoop ⟨NORMAL, d, e⟩ ('/' :: '*' :: rest2) =
      stripLoop ⟨BLOCK, d, e⟩ rest2 := by
  simp [stripLoop]

theorem stripLoop_normal_slash_other (d : Char) (e : Bool) (nxt : Char)
    (rest2 : List Char) (h1 : nxt ≠ '/') (h2 : nxt ≠ '*') :
    stripLoop ⟨NORMAL, d, e⟩ ('/' :: nxt :: rest2) =
      '/' :: stripLoop ⟨NORMAL, d, e⟩ (nxt :: rest2) := by
  simp [stripLoop, h1, h2]

/-- From `NORMAL`, any character other than `'/'` is emitted first: the
output of the scan on `ch :: rest` starts with `ch` itself. -/
theorem stripLoop_normal_head (d : Char) (e : Bool) (ch : Char)
    (rest : List Char) (h : ch ≠ '/') :
    ∃ tl, stripLoop ⟨NORMAL, d, e⟩ (ch :: rest) = ch :: tl := by
  by_cases h1 : ch = '"'
  · subst h1; exact ⟨_, stripLoop_normal_dquote d e rest⟩
  · by_cases h2 : ch = '\''
    · subst h2; exact ⟨_, stripLoop_normal_squote d e rest⟩
    · exact ⟨_, stripLoop_normal_other d e ch rest h1 h2 h⟩

/-! ### Re-scanning stripped output

The key lemma behind idempotence: the output produced by the scanner from
any reachable configuration re-scans to itself.  Reachable configurations
have `escape = false` outside the literal modes, hence the `false` flags in
the `NORMAL`/`LINE`/`BLOCK` components. -/

theorem stripLoop_rescan (n : Nat) :
    ∀ text : List Char, text.length ≤ n →
      (∀ d d', stripLoop ⟨NORMAL, d', false⟩ (stripLoop ⟨NORMAL, d, false⟩ text) =
          stripLoop ⟨NORMAL, d, false⟩ text) ∧
      (∀ d e, stripLoop ⟨STRING, d, e⟩ (stripLoop ⟨STRING, d, e⟩ text) =
          stripLoop ⟨STRING, d, e⟩ text) ∧
      (∀ d e, stripLoop ⟨CHAR, d, e⟩ (stripLoop ⟨CHAR, d, e⟩ text) =
          stripLoop ⟨CHAR, d, e⟩ text) ∧
      (∀ d d', stripLoop ⟨NORMAL, d', false⟩ (stripLoop ⟨LINE, d, false⟩ text) =
          stripLoop ⟨LINE, d, false⟩ text) ∧
      (∀ d d', stripLoop ⟨NORMAL, d', false⟩ (stripLoop ⟨BLOCK, d, false⟩ text) =
          stripLoop ⟨BLOCK, d, false⟩ text) := by
  induction n with
  | zero =>
    intro text h
    have htext : text = [] := List.eq_nil_of_length_eq_zero (Nat.le_zero.mp h)
    subst htext
    exact ⟨fun _ _ => rfl, fun _ _ => rfl, fun _ _ => rfl, fun _ _ => rfl,
      fun _ _ => rfl⟩
  | succ n ih =>
    intro text hlen
    cases text with
    | nil =>
      exact ⟨fun _ _ => rfl, fun _ _ => rfl, fun _ _ => rfl, fun _ _ => rfl,
        fun _ _ => rfl⟩
    | cons ch rest =>
      have hrest : rest.length ≤ n := Nat.succ_le_succ_iff.mp (by simpa using hlen)
      refine ⟨?_, ?_, ?_, ?_, ?_⟩
      · -- NORMAL re-scans to itself
        intro d d'
        by_cases h1 : ch = '"'
        · subst h1
          rw [stripLoop_normal_dquote, stripLoop_normal_dquote,
            (ih rest hrest).2.1]
        · by_cases h2 : ch = '\''
          · subst h2
            rw [stripLoop_normal_squote, stripLoop_normal_squote,
              (ih rest hrest).2.2.1]
          · by_cases h3 : ch = '/'
            · subst h3
              cases rest with
              | nil => rfl
              | cons n1 r2 =>
                have hr2 : r2.length ≤ n := Nat.le_of_succ_le hrest
                by_cases h4 : n1 = '/'
                · subst h4
                  rw [stripLoop_normal_slash_line]
                  exact (ih r2 hr2).2.2.2.1 d d'
                · by_cases h5 : n1 = '*'
                  · subst h5
                    rw [stripLoop_normal_slash_block]
                    exact (ih r2 hr2).2.2.2.2 d d'
                  · obtain ⟨tl, htl⟩ := stripLoop_normal_head d false n1 r2 h4
                    rw [stripLoop_normal_slash_other d false n1 r2 h4 h5, htl,
                      stripLoop_normal_slash_other d' false n1 tl h4 h5, ← htl,
                      (ih (n1 :: r2) hrest).1 d d']
            · rw [stripLoop_normal_other d false ch rest h1 h2 h3,
                stripLoop_normal_other d' false ch
                  (stripLoop ⟨NORMAL, d, false⟩ rest) h1 h2 h3,
                (ih rest hrest).1 d d']
      · -- STRING re-scans to itself
        intro d e
        rw [stripLoop_string_cons]
        rw [stripLoop_string_cons d e ch]
        split_ifs
        · exact congrArg (List.cons ch) ((ih rest hrest).2.1 d false)
        · exact congrArg (List.cons ch) ((ih rest hrest).2.1 d true)
        · exact congrArg (List.cons ch) ((ih rest hrest).1 d d)
        · exact congrArg (List.cons ch) ((ih rest hrest).2.1 d false)
      · -- CHAR re-scans to itself
        intro d e
        rw [stripLoop_char_cons]
        rw [stripLoop_char_cons d e ch]
        split_ifs
        · exact congrArg (List.cons ch) ((ih rest hrest).2.2.1 d false)
        · exact congrArg (List.cons ch) ((ih rest hrest).2.2.1 d true)
        · exact congrArg (List.cons ch) ((ih rest hrest).1 d d)
        · exact congrArg (List.cons ch) ((ih rest hrest).2.2.1 d false)
      · -- LINE re-scans to itself
        intro d d'
        rw [stripLoop_line_cons]
        by_cases hnl : ch = '\n'
        · rw [if_pos hnl,
            stripLoop_normal_other d' false '\n'
              (stripLoop ⟨NORMAL, d, false⟩ rest) (by decide) (by decide)
              (by decide),
            (ih rest hrest).1 d d']
        · rw [if_neg hnl]
          exact (ih rest hrest).2.2.2.1 d d'
      · -- BLOCK re-scans to itself
        intro d d'
        cases rest with
        | nil => rfl
        | cons n1 r2 =>
          by_cases hc : ch = '*' ∧ n1 = '/'
          · obtain ⟨hc1, hc2⟩ := hc
            subst hc1; subst hc2
            rw [stripLoop_block_close]
            exact (ih r2 (Nat.le_of_succ_le hrest)).1 d d'
          · rw [stripLoop_block_skip d false ch (n1 :: r2)
              (by intro hh; exact hc ⟨hh.1, by simpa using hh.2⟩)]
            exact (ih (n1 :: r2) hrest).2.2.2.2 d d'

/-- Claim C1: the strip operation is idempotent — for every input string
`x`, `strip_comments (strip_comments x) = strip_comments x`; re-stripping
already-stripped text changes nothing. -/
theorem strip_comments_idempotent (x : String) :
    strip_comments (strip_comments x) = strip_comments x := by
  have h := (stripLoop_rescan x.data.length x.data le_rfl).1 '"' '"'
  simp only [strip_comments, initState]
  exact congrArg String.mk h

/-! ### End-of-buffer fallback behaviour -/

/-- In `LINE` mode, a buffer containing no newline is consumed entirely with
no output: the trailing comment text is dropped and no newline is added. -/
theorem stripLoop_line_all_dropped (d : Char) (e : Bool) :
    ∀ text : List Char, '\n' ∉ text → stripLoop ⟨LINE, d, e⟩ text = [] := by
  intro text
  induction text with
  | nil => intro _; rfl
  | cons ch rest ihr =>
    intro h
    have hch : ¬ch = '\n' := fun hc => h (by simp [hc])
    rw [stripLoop_line_cons, if_neg hch,
      ihr (fun hm => h (List.mem_cons_of_mem ch hm))]

/-- In `BLOCK` mode, a buffer containing no `*/` occurrence is consumed
entirely with no output. -/
theorem stripLoop_block_all_dropped (d : Char) (e : Bool) :
    ∀ text : List Char, hasBlockClose text = false →
      stripLoop ⟨BLOCK, d, e⟩ text = [] := by
  intro text
  induction text with
  | nil => intro _; rfl
  | cons ch rest ihr =>
    intro h
    cases rest with
    | nil => rfl
    | cons nxt rest2 =>
      simp only [hasBlockClose, Bool.or_eq_false_iff, Bool.and_eq_false_iff,
        beq_eq_false_iff_ne, ne_eq] at h
      have hguard : ¬(ch = '*' ∧ nxt = '/') := by
        intro hc
        rcases h.1 with h1 | h1 <;> exact h1 (by simp [hc.1, hc.2])
      rw [stripLoop_block_skip d e ch (nxt :: rest2)
        (by intro hc; exact hguard ⟨hc.1, by simpa using hc.2⟩)]
      exact ihr h.2

/-! ### Claims C2 – C5 -/

/-- Claim C2: inside a string or character literal every character is copied
to the output unconditionally; the escape-pending flag is cleared after
consuming the escaped character, is set by an un-escaped backslash, and the
literal returns to `NORMAL` exactly when the remembered delimiter is seen
with escape pending false.  Consequently the escaped-quote literal
`"a\"b"` is copied through unchanged and does not terminate the literal
early. -/
theorem literal_copy_escape_transition (d : Char) (e : Bool) (ch : Char)
    (rest : List Char) :
    (stripLoop ⟨STRING, d, e⟩ (ch :: rest) =
      ch ::
        stripLoop
          (if e then ⟨STRING, d, false⟩
           else if ch = '\\' then ⟨STRING, d, true⟩
           else if ch = d then ⟨NORMAL, d, false⟩
           else ⟨STRING, d, false⟩)
          rest) ∧
    (stripLoop ⟨CHAR, d, e⟩ (ch :: rest) =
      ch ::
        stripLoop
          (if e then ⟨CHAR, d, false⟩
           else if ch = '\\' then ⟨CHAR, d, true⟩
           else if ch = d then ⟨NORMAL, d, false⟩
           else ⟨CHAR, d, false⟩)
          rest) ∧
    strip_comments "\"a\\\"b\"" = "\"a\\\"b\"" :=
  ⟨stripLoop_string_cons d e ch rest, stripLoop_char_cons d e ch rest,
    by decide⟩

/-- Claim C3: when the buffer ends inside a line comment with no terminating
newline, the scan ends without error, the trailing comment text is dropped,
and no newline is added; in particular stripping
`char *s = "http://x"; // note` yields exactly `char *s = "http://x"; `
with no added newline. -/
theorem line_comment_eof_dropped (d : Char) (e : Bool) (text : List Char)
    (h : '\n' ∉ text) :
    stripLoop ⟨LINE, d, e⟩ text = [] ∧
    strip_comments "char *s = \"http://x\"; // note" =
      "char *s = \"http://x\"; " :=
  ⟨stripLoop_line_all_dropped d e text h, by decide⟩

/-- Claim C3 witness at the concrete trailing comment ` note`. -/
theorem line_comment_eof_dropped_witness :
    '\n' ∉ (" note".data) ∧
    (stripLoop ⟨LINE, '"', false⟩ (" note".data) = [] ∧
      strip_comments "char *s = \"http://x\"; // note" =
        "char *s = \"http://x\"; ") :=
  ⟨by decide, line_comment_eof_dropped '"' false (" note".data) (by decide)⟩

/-- Claim C4: when the buffer ends inside a block comment with no closing
`*/`, the scan ends without error and everything from the opening `/*` to
the end of the buffer is dropped; in particular stripping
`/* unterminated` yields the empty string. -/
theorem block_comment_eof_dropped (d : Char) (e : Bool) (text : List Char)
    (h : hasBlockClose text = false) :
    stripLoop ⟨BLOCK, d, e⟩ text = [] ∧
    strip_comments "/* unterminated" = "" :=
  ⟨stripLoop_block_all_dropped d e text h, by decide⟩

/-- Claim C4 witness at the concrete comment body ` unterminated`. -/
theorem block_comment_eof_dropped_witness :
    hasBlockClose (" unterminated".data) = false ∧
    (stripLoop ⟨BLOCK, '"', false⟩ (" unterminated".data) = [] ∧
      strip_comments "/* unterminated" = "") :=
  ⟨by decide, block_comment_eof_dropped '"' false (" unterminated".data)
    (by decide)⟩

/-- Claim C5: in `NORMAL` state a `/` that is not followed by another `/`
or a `*` — including a `/` that is the last character of the buffer — is
copied verbatim and the scanner stays in `NORMAL`. -/
theorem normal_slash_not_comment (d : Char) (e : Bool) (c : Char)
    (rest : List Char) (h1 : c ≠ '/') (h2 : c ≠ '*') :
    stripLoop ⟨NORMAL, d, e⟩ ['/'] = ['/'] ∧
    stripLoop ⟨NORMAL, d, e⟩ ('/' :: c :: rest) =
      '/' :: stripLoop ⟨NORMAL, d, e⟩ (c :: rest) :=
  ⟨stripLoop_normal_slash_nil d e,
    stripLoop_normal_slash_other d e c rest h1 h2⟩

/-- Claim C5 witness at the concrete buffer `/a`. -/
theorem normal_slash_not_comment_witness :
    ('a' ≠ '/' ∧ 'a' ≠ '*') ∧
    (stripLoop ⟨NORMAL, '"', false⟩ ['/'] = ['/'] ∧
      stripLoop ⟨NORMAL, '"', false⟩ ('/' :: 'a' :: []) =
        '/' :: stripLoop ⟨NORMAL, '"', false⟩ ('a' :: [])) :=
  ⟨⟨by decide, by decide⟩,
    normal_slash_not_comment '"' false 'a' [] (by decide) (by decide)⟩

/-! ### Slash-free inputs and the subsequence property -/

/-- On a buffer containing no `'/'`, the scanner copies every character,
whichever of the non-comment modes it starts in: no comment can open, and
the literal modes copy unconditionally. -/
theorem stripLoop_no_slash :
    ∀ text : List Char, '/' ∉ text →
      (∀ d e, stripLoop ⟨NORMAL, d, e⟩ text = text) ∧
      (∀ d e, stripLoop ⟨STRING, d, e⟩ text = text) ∧
      (∀ d e, stripLoop ⟨CHAR, d, e⟩ text = text) := by
  intro text
  induction text with
  | nil => intro _; exact ⟨fun _ _ => rfl, fun _ _ => rfl, fun _ _ => rfl⟩
  | cons ch rest ihr =>
    intro h
    have hch : ch ≠ '/' := fun hc => h (by simp [hc])
    have hrest : '/' ∉ rest := fun hm => h (List.mem_cons_of_mem ch hm)
    obtain ⟨ihN, ihS, ihC⟩ := ihr hrest
    refine ⟨?_, ?_, ?_⟩
    · intro d e
      by_cases h1 : ch = '"'
      · subst h1; rw [stripLoop_normal_dquote, ihS '"' e]
      · by_cases h2 : ch = '\''
        · subst h2; rw [stripLoop_normal_squote, ihC '\'' e]
        · rw [stripLoop_normal_other d e ch rest h1 h2 hch, ihN d e]
    · intro d e
      rw [stripLoop_string_cons]
      split_ifs
      · rw [ihS d false]
      · rw [ihS d true]
      · rw [ihN d false]
      · rw [ihS d false]
    · intro d e
      rw [stripLoop_char_cons]
      split_ifs
      · rw [ihC d false]
      · rw [ihC d true]
      · rw [ihN d false]
      · rw [ihC d false]

/-- Claim C10: every slash-free string is a fixed point of the scanner,
regardless of the quotes, backslashes, stars or newlines it contains. -/
theorem strip_comments_slash_free_fixed_point (x : String)
    (h : '/' ∉ x.data) : strip_comments x = x := by
  obtain ⟨l⟩ := x
  have hl := (stripLoop_no_slash l h).1 '"' false
  simp only [strip_comments, initState]
  exact congrArg String.mk hl

/-- Claim C10 witness at a slash-free string containing quotes, a
backslash, a star and a newline. -/
theorem strip_comments_slash_free_fixed_point_witness :
    '/' ∉ ("a\"b\\c*d\ne".data) ∧
    strip_comments "a\"b\\c*d\ne" = "a\"b\\c*d\ne" :=
  ⟨by decide, strip_comments_slash_free_fixed_point _ (by decide)⟩

/-- From any state, the output of the scanner is a subsequence of its input:
every emitted character is copied from the buffer, in order. -/
theorem stripLoop_sublist (n : Nat) :
    ∀ text : List Char, text.length ≤ n → ∀ s : ScanState,
      (stripLoop s text).Sublist text := by
  induction n with
  | zero =>
    intro text h _
    have htext : text = [] := List.eq_nil_of_length_eq_zero (Nat.le_zero.mp h)
    subst htext
    exact List.Sublist.refl []
  | succ n ih =>
    intro text hlen s
    rcases s with ⟨ms, d, e⟩
    cases text with
    | nil => exact List.Sublist.refl []
    | cons ch rest =>
      have hrest : rest.length ≤ n := Nat.succ_le_succ_iff.mp (by simpa using hlen)
      cases ms with
      | NORMAL =>
        by_cases h1 : ch = '"'
        · subst h1
          rw [stripLoop_normal_dquote]
          exact List.Sublist.cons₂ _ (ih rest hrest _)
        · by_cases h2 : ch = '\''
          · subst h2
            rw [stripLoop_normal_squote]
            exact List.Sublist.cons₂ _ (ih rest hrest _)
          · by_cases h3 : ch = '/'
            · subst h3
              cases rest with
              | nil => exact List.Sublist.refl _
              | cons n1 r2 =>
                have hr2 : r2.length ≤ n := Nat.le_of_succ_le hrest
                by_cases h4 : n1 = '/'
                · subst h4
                  rw [stripLoop_normal_slash_line]
                  exact ((ih r2 hr2 _).cons _).cons _
                · by_cases h5 : n1 = '*'
                  · subst h5
                    rw [stripLoop_normal_slash_block]
                    exact ((ih r2 hr2 _).cons _).cons _
                  · rw [stripLoop_normal_slash_other d e n1 r2 h4 h5]
                    exact List.Sublist.cons₂ _ (ih (n1 :: r2) hrest _)
            · rw [stripLoop_normal_other d e ch rest h1 h2 h3]
              exact List.Sublist.cons₂ _ (ih rest hrest _)
      | LINE =>
        rw [stripLoop_line_cons]
        by_cases hnl : ch = '\n'
        · rw [if_pos hnl, hnl]
          exact List.Sublist.cons₂ _ (ih rest hrest _)
        · rw [if_neg hnl]
          exact (ih rest hrest _).cons _
      | BLOCK =>
        cases rest with
        | nil =>
          have hb : stripLoop ⟨BLOCK, d, e⟩ [ch] = [] := rfl
          rw [hb]
          exact List.nil_sublist _
        | cons n1 r2 =>
          by_cases hc : ch = '*' ∧ n1 = '/'
          · obtain ⟨hc1, hc2⟩ := hc
            subst hc1; subst hc2
            rw [stripLoop_block_close]
            exact ((ih r2 (Nat.le_of_succ_le hrest) _).cons _).cons _
          · rw [stripLoop_block_skip d e ch (n1 :: r2)
              (by intro hh; exact hc ⟨hh.1, by simpa using hh.2⟩)]
            exact (ih (n1 :: r2) hrest _).cons _
      | STRING =>
        rw [stripLoop_string_cons]
        exact List.Sublist.cons₂ _ (ih rest hrest _)
      | CHAR =>
        rw [stripLoop_char_cons]
        exact List.Sublist.cons₂ _ (ih rest hrest _)

/-- Claim C9: the output of strip is a subsequence of the input — every
emitted character, including the newline that ends a stripped line comment,
is copied from the buffer at strictly increasing positions, and no
character is synthesized; consequently the output is never longer than the
input. -/
theorem strip_comments_sublist_of_input (x : String) :
    ((strip_comments x).data).Sublist x.data ∧
      (strip_comments x).length ≤ x.length := by
  have h := stripLoop_sublist x.data.length x.data le_rfl initState
  exact ⟨h, h.length_le⟩

/-! ### Block comments and line structure -/

/-- A prefix of plain code — no slash, no quote of either kind — is copied
verbatim from `NORMAL`, leaving the scanner in `NORMAL` for the rest. -/
theorem stripLoop_normal_copy_plain :
    ∀ pre : List Char, (∀ c ∈ pre, c ≠ '/' ∧ c ≠ '"' ∧ c ≠ '\'') →
      ∀ (d : Char) (e : Bool) (rest : List Char),
        stripLoop ⟨NORMAL, d, e⟩ (pre ++ rest) =
          pre ++ stripLoop ⟨NORMAL, d, e⟩ rest := by
  intro pre
  induction pre with
  | nil => intro _ d e rest; rfl
  | cons c pre' ihp =>
    intro h d e rest
    have hc := h c (by simp)
    have hp : ∀ x ∈ pre', x ≠ '/' ∧ x ≠ '"' ∧ x ≠ '\'' :=
      fun x hx => h x (by simp [hx])
    rw [List.cons_append,
      stripLoop_normal_other d e c _ hc.2.1 hc.2.2 hc.1,
      ihp hp d e rest, List.cons_append]

/-- In `BLOCK` mode, a body with no internal `*/` is discarded up to and
including the first closing `*/`, after which the scanner is back in
`NORMAL` on the remainder. -/
theorem stripLoop_block_through :
    ∀ body : List Char, hasBlockClose body = false →
      ∀ (d : Char) (e : Bool) (rest : List Char),
        stripLoop ⟨BLOCK, d, e⟩ (body ++ '*' :: '/' :: rest) =
          stripLoop ⟨NORMAL, d, e⟩ rest := by
  intro body
  induction body with
  | nil => intro _ d e rest; exact stripLoop_block_close d e rest
  | cons c body' ihb =>
    intro h d e rest
    have h' : hasBlockClose body' = false := by
      cases body' with
      | nil => rfl
      | cons b2 t =>
        simp only [hasBlockClose, Bool.or_eq_false_iff] at h
        exact h.2
    have hguard :
        ¬(c = '*' ∧ (body' ++ '*' :: '/' :: rest).head? = some '/') := by
      cases body' with
      | nil =>
        intro hcc
        simp at hcc
      | cons b2 t =>
        intro hcc
        simp only [List.cons_append, List.head?_cons, Option.some.injEq] at hcc
        simp only [hasBlockClose, Bool.or_eq_false_iff, Bool.and_eq_false_iff,
          beq_eq_false_iff_ne, ne_eq] at h
        rcases h.1 with h1 | h1
        · exact h1 hcc.1
        · exact h1 hcc.2
    rw [List.cons_append, stripLoop_block_skip d e c _ hguard, ihb h' d e rest]

/-- Claim C6: for input made of plain (commentless, literal-free) code
around one terminated block comment whose body spans `k` newlines, the
stripped output is exactly the surrounding code, and the output has `k`
fewer newline characters than the input (so for `k = 0` the newline count
is unchanged). -/
theorem block_comment_newline_removal (pre body post : List Char)
    (hpre : ∀ c ∈ pre, c ≠ '/' ∧ c ≠ '"' ∧ c ≠ '\'')
    (hpost : ∀ c ∈ post, c ≠ '/' ∧ c ≠ '"' ∧ c ≠ '\'')
    (hbody : hasBlockClose body = false) :
    (strip_comments ⟨pre ++ '/' :: '*' :: (body ++ '*' :: '/' :: post)⟩).data
        = pre ++ post ∧
    (strip_comments
        ⟨pre ++ '/' :: '*' :: (body ++ '*' :: '/' :: post)⟩).data.count '\n'
        + body.count '\n'
      = (pre ++ '/' :: '*' :: (body ++ '*' :: '/' :: post)).count '\n' := by
  have hmain :
      stripLoop initState (pre ++ '/' :: '*' :: (body ++ '*' :: '/' :: post))
        = pre ++ post := by
    rw [show initState = (⟨NORMAL, '"', false⟩ : ScanState) from rfl,
      stripLoop_normal_copy_plain pre hpre '"' false _,
      stripLoop_normal_slash_block, stripLoop_block_through body hbody]
    have h2 := stripLoop_normal_copy_plain post hpost '"' false []
    rw [List.append_nil] at h2
    rw [h2, stripLoop_nil, List.append_nil]
  have hdata :
      (strip_comments
          ⟨pre ++ '/' :: '*' :: (body ++ '*' :: '/' :: post)⟩).data
        = pre ++ post := hmain
  refine ⟨hdata, ?_⟩
  rw [hdata]
  simp [List.count_append, List.count_cons]
  ring

/-- Claim C6 witness: `pre = "int x;\n"`, a body spanning one newline,
`post = " y"`. -/
theorem block_comment_newline_removal_witness :
    hasBlockClose (" a\nb ".data) = false ∧
    ((strip_comments
        ⟨"int x;\n".data ++ '/' :: '*' ::
          (" a\nb ".data ++ '*' :: '/' :: " y".data)⟩).data
        = "int x;\n".data ++ " y".data ∧
      (strip_comments
          ⟨"int x;\n".data ++ '/' :: '*' ::
            (" a\nb ".data ++ '*' :: '/' :: " y".data)⟩).data.count '\n'
          + (" a\nb ".data).count '\n'
        = ("int x;\n".data ++ '/' :: '*' ::
            (" a\nb ".data ++ '*' :: '/' :: " y".data)).count '\n') :=
  ⟨by decide,
    block_comment_newline_removal ("int x;\n".data) (" a\nb ".data)
      (" y".data) (by decide) (by decide) (by decide)⟩

/-! ### The index-based loop agrees with the suffix-based one -/

theorem stripRun_succ_of_step (text : List Char) (fuel : Nat) (s : ScanState)
    (i : Nat) (s' : ScanState) (j : Nat) (out : List Char)
    (hi : i < text.length) (hs : stripStep text s i = (s', j, out)) :
    stripRun text (fuel + 1) s i = out ++ stripRun text fuel s' j := by
  simp [stripRun, if_pos hi, hs]

theorem stripRun_eq_stripLoop :
    ∀ (fuel : Nat) (text : List Char) (s : ScanState) (i : Nat),
      text.length - i ≤ fuel →
      stripRun text fuel s i = stripLoop s (text.drop i) := by
  intro fuel
  induction fuel with
  | zero =>
    intro text s i h
    have hle : text.length ≤ i := Nat.sub_eq_zero_iff_le.mp (Nat.le_zero.mp h)
    rw [List.drop_eq_nil_of_le hle]
    rfl
  | succ fuel ih =>
    intro text s i h
    by_cases hi : i < text.length
    · have hgd : text.getD i ' ' = text[i] := List.getD_eq_getElem text ' ' hi
      have hsome : text[i]? = some text[i] := List.getElem?_eq_getElem hi
      have hdrop : text.drop i = text[i] :: text.drop (i + 1) :=
        List.drop_eq_getElem_cons hi
      rcases s with ⟨ms, d, e⟩
      cases ms with
      | NORMAL =>
        by_cases h1 : text[i] = '"'
        · have hs : stripStep text ⟨NORMAL, d, e⟩ i =
              (⟨STRING, '"', e⟩, i + 1, [text[i]]) := by
            simp [stripStep, hsome, h1]
          rw [stripRun_succ_of_step text fuel _ i _ _ _ hi hs,
            ih text _ (i + 1) (by omega), hdrop, h1,
            stripLoop_normal_dquote]
          rfl
        · by_cases h2 : text[i] = '\''
          · have hs : stripStep text ⟨NORMAL, d, e⟩ i =
                (⟨CHAR, '\'', e⟩, i + 1, [text[i]]) := by
              simp [stripStep, hsome, h1, h2]
            rw [stripRun_succ_of_step text fuel _ i _ _ _ hi hs,
              ih text _ (i + 1) (by omega), hdrop, h2,
              stripLoop_normal_squote]
            rfl
          · by_cases h3 : text[i] = '/'
            · by_cases h4 : i + 1 < text.length
              · have hsome2 : text[i + 1]? = some text[i + 1] :=
                  List.getElem?_eq_getElem h4
                have hdrop2 :
                    text.drop (i + 1) = text[i + 1] :: text.drop (i + 2) :=
                  List.drop_eq_getElem_cons h4
                by_cases h5 : text[i + 1] = '/'
                · have hs : stripStep text ⟨NORMAL, d, e⟩ i =
                      (⟨LINE, d, e⟩, i + 2, []) := by
                    simp [stripStep, hsome, hsome2, h1, h2, h3, h4, h5]
                  rw [stripRun_succ_of_step text fuel _ i _ _ _ hi hs,
                    ih text _ (i + 2) (by omega), hdrop, hdrop2, h3, h5,
                    stripLoop_normal_slash_line]
                  rfl
                · by_cases h6 : text[i + 1] = '*'
                  · have hs : stripStep text ⟨NORMAL, d, e⟩ i =
                        (⟨BLOCK, d, e⟩, i + 2, []) := by
                      simp [stripStep, hsome, hsome2, h1, h2, h3, h4, h5, h6]
                    rw [stripRun_succ_of_step text fuel _ i _ _ _ hi hs,
                      ih text _ (i + 2) (by omega), hdrop, hdrop2, h3, h6,
                      stripLoop_normal_slash_block]
                    rfl
                  · have hs : stripStep text ⟨NORMAL, d, e⟩ i =
                        (⟨NORMAL, d, e⟩, i + 1, [text[i]]) := by
                      simp [stripStep, hsome, hsome2, h1, h2, h3, h4, h5, h6]
                    rw [stripRun_succ_of_step text fuel _ i _ _ _ hi hs,
                      ih text _ (i + 1) (by omega), hdrop, hdrop2, h3,
                      stripLoop_normal_slash_other d e _ _ h5 h6]
                    rfl
              · have hs : stripStep text ⟨NORMAL, d, e⟩ i =
                    (⟨NORMAL, d, e⟩, i + 1, [text[i]]) := by
                  simp [stripStep, hsome, h1, h2, h3, h4]
                have hnil : text.drop (i + 1) = [] :=
                  List.drop_eq_nil_of_le (by omega)
                rw [stripRun_succ_of_step text fuel _ i _ _ _ hi hs,
                  ih text _ (i + 1) (by omega), hdrop, hnil, h3]
                rfl
            · have hs : stripStep text ⟨NORMAL, d, e⟩ i =
                  (⟨NORMAL, d, e⟩, i + 1, [text[i]]) := by
                simp [stripStep, hsome, h1, h2, h3]
              rw [stripRun_succ_of_step text fuel _ i _ _ _ hi hs,
                ih text _ (i + 1) (by omega), hdrop,
                stripLoop_normal_other d e _ _ h1 h2 h3]
              rfl
      | LINE =>
        by_cases h1 : text[i] = '\n'
        · have hs : stripStep text ⟨LINE, d, e⟩ i =
              (⟨NORMAL, d, e⟩, i + 1, ['\n']) := by
            simp [stripStep, hsome, h1]
          rw [stripRun_succ_of_step text fuel _ i _ _ _ hi hs,
            ih text _ (i + 1) (by omega), hdrop, stripLoop_line_cons,
            if_pos h1]
          rfl
        · have hs : stripStep text ⟨LINE, d, e⟩ i =
              (⟨LINE, d, e⟩, i + 1, []) := by
            simp [stripStep, hsome, h1]
          rw [stripRun_succ_of_step text fuel _ i _ _ _ hi hs,
            ih text _ (i + 1) (by omega), hdrop, stripLoop_line_cons,
            if_neg h1]
          rfl
      | BLOCK =>
        by_cases hcl : text[i] = '*' ∧ i + 1 < text.length ∧
            text.getD (i + 1) ' ' = '/'
        · obtain ⟨hc1, hc2, hc3⟩ := hcl
          have hsome2 : text[i + 1]? = some text[i + 1] :=
            List.getElem?_eq_getElem hc2
          have hc3' : text[i + 1] = '/' := by
            rw [← List.getD_eq_getElem text ' ' hc2]; exact hc3
          have hdrop2 : text.drop (i + 1) = text[i + 1] :: text.drop (i + 2) :=
            List.drop_eq_getElem_cons hc2
          have hs : stripStep text ⟨BLOCK, d, e⟩ i =
              (⟨NORMAL, d, e⟩, i + 2, []) := by
            simp [stripStep, hsome, hsome2, hc1, hc2, hc3']
          rw [stripRun_succ_of_step text fuel _ i _ _ _ hi hs,
            ih text _ (i + 2) (by omega), hdrop, hdrop2, hc1, hc3',
            stripLoop_block_close]
          rfl
        · have hs : stripStep text ⟨BLOCK, d, e⟩ i =
              (⟨BLOCK, d, e⟩, i + 1, []) := by
            simp only [stripStep, hgd]
            rw [if_neg hcl]
          have hguard :
              ¬(text[i] = '*' ∧ (text.drop (i + 1)).head? = some '/') := by
            rw [List.head?_drop]
            by_cases h4 : i + 1 < text.length
            · rw [List.getElem?_eq_getElem h4]
              intro hc
              exact hcl ⟨hc.1, h4,
                by rw [List.getD_eq_getElem text ' ' h4]
                   exact Option.some.inj hc.2⟩
            · rw [List.getElem?_eq_none (by omega)]
              intro hc
              exact Option.noConfusion hc.2
          rw [stripRun_succ_of_step text fuel _ i _ _ _ hi hs,
            ih text _ (i + 1) (by omega), hdrop,
            stripLoop_block_skip d e _ _ hguard]
          rfl
      | STRING =>
        cases e with
        | true =>
          have hs : stripStep text ⟨STRING, d, true⟩ i =
              (⟨STRING, d, false⟩, i + 1, [text[i]]) := by
            simp [stripStep, hsome]
          rw [stripRun_succ_of_step text fuel _ i _ _ _ hi hs,
            ih text _ (i + 1) (by omega), hdrop, stripLoop_string_cons,
            if_pos rfl]
          rfl
        | false =>
          by_cases hb : text[i] = '\\'
          · have hs : stripStep text ⟨STRING, d, false⟩ i =
                (⟨STRING, d, true⟩, i + 1, [text[i]]) := by
              simp [stripStep, hsome, hb]
            rw [stripRun_succ_of_step text fuel _ i _ _ _ hi hs,
              ih text _ (i + 1) (by omega), hdrop, stripLoop_string_cons]
            simp [hb]
          · by_cases hdm : text[i] = d
            · have hd' : ¬d = '\\' := fun hh => hb (hdm.trans hh)
              have hs : stripStep text ⟨STRING, d, false⟩ i =
                  (⟨NORMAL, d, false⟩, i + 1, [text[i]]) := by
                simp [stripStep, hsome, hb, hdm, hd']
              rw [stripRun_succ_of_step text fuel _ i _ _ _ hi hs,
                ih text _ (i + 1) (by omega), hdrop, stripLoop_string_cons]
              simp [hb, hdm, hd']
            · have hs : stripStep text ⟨STRING, d, false⟩ i =
                  (⟨STRING, d, false⟩, i + 1, [text[i]]) := by
                simp [stripStep, hsome, hb, hdm]
              rw [stripRun_succ_of_step text fuel _ i _ _ _ hi hs,
                ih text _ (i + 1) (by omega), hdrop, stripLoop_string_cons]
              simp [hb, hdm]
      | CHAR =>
        cases e with
        | true =>
          have hs : stripStep text ⟨CHAR, d, true⟩ i =
              (⟨CHAR, d, false⟩, i + 1, [text[i]]) := by
            simp [stripStep, hsome]
          rw [stripRun_succ_of_step text fuel _ i _ _ _ hi hs,
            ih text _ (i + 1) (by omega), hdrop, stripLoop_char_cons,
            if_pos rfl]
          rfl
        | false =>
          by_cases hb : text[i] = '\\'
          · have hs : stripStep text ⟨CHAR, d, false⟩ i =
                (⟨CHAR, d, true⟩, i + 1, [text[i]]) := by
              simp [stripStep, hsome, hb]
            rw [stripRun_succ_of_step text fuel _ i _ _ _ hi hs,
              ih text _ (i + 1) (by omega), hdrop, stripLoop_char_cons]
            simp [hb]
          · by_cases hdm : text[i] = d
            · have hd' : ¬d = '\\' := fun hh => hb (hdm.trans hh)
              have hs : stripStep text ⟨CHAR, d, false⟩ i =
                  (⟨NORMAL, d, false⟩, i + 1, [text[i]]) := by
                simp [stripStep, hsome, hb, hdm, hd']
              rw [stripRun_succ_of_step text fuel _ i _ _ _ hi hs,
                ih text _ (i + 1) (by omega), hdrop, stripLoop_char_cons]
              simp [hb, hdm, hd']
            · have hs : stripStep text ⟨CHAR, d, false⟩ i =
                  (⟨CHAR, d, false⟩, i + 1, [text[i]]) := by
                simp [stripStep, hsome, hb, hdm]
              rw [stripRun_succ_of_step text fuel _ i _ _ _ hi hs,
                ih text _ (i + 1) (by omega), hdrop, stripLoop_char_cons]
              simp [hb, hdm]
    · rw [List.drop_eq_nil_of_le (by omega), stripLoop_nil]
      simp [stripRun, hi]

/-! ### Cursor invariants and totality -/

/-- Every loop iteration advances the cursor by exactly 1 or 2, and a
2-step advance happens only when the lookahead position `i + 1` is still
inside the buffer. -/
theorem stripStep_advance (text : List Char) (s : ScanState) (i : Nat) :
    i < (stripStep text s i).2.1 ∧
    ((stripStep text s i).2.1 = i + 1 ∨
      ((stripStep text s i).2.1 = i + 2 ∧ i + 1 < text.length)) := by
  rcases s with ⟨ms, d, e⟩
  cases ms <;> simp only [stripStep] <;> (try split_ifs) <;> simp_all

/-- Along the scan, the cursor never exceeds the buffer length. -/
theorem reaches_le (text : List Char) :
    ∀ p : ScanState × Nat, Reaches text p → p.2 ≤ text.length := by
  intro p h
  induction h with
  | init => exact Nat.zero_le _
  | step hr hlt ih =>
    rename_i s i
    rcases stripStep_advance text s i with ⟨_, h1 | h2⟩ <;> omega

/-- Claim C7: throughout every scan the cursor is monotonically
non-decreasing and never exceeds the buffer length: every step advances the
index by 1 or by 2, a 2-step advance occurs only when at least two
characters remain, the index is ≤ the buffer length at every reachable
configuration, and it equals the length when the scan ends. -/
theorem cursor_monotone_bounded (text : List Char) (s : ScanState) (i : Nat)
    (h : Reaches text (s, i)) :
    i ≤ text.length ∧
    (i < text.length →
      i < (stripStep text s i).2.1 ∧
      ((stripStep text s i).2.1 = i + 1 ∨
        ((stripStep text s i).2.1 = i + 2 ∧ i + 1 < text.length))) ∧
    (¬i < text.length → i = text.length) := by
  have hb := reaches_le text (s, i) h
  exact ⟨hb, fun _ => stripStep_advance text s i, fun hnlt => by omega⟩

/-- Claim C7 witness on the one-character buffer `a`, at the initial
configuration. -/
theorem cursor_monotone_bounded_witness :
    Reaches ['a'] (initState, 0) ∧
    (0 ≤ (['a'] : List Char).length ∧
      (0 < (['a'] : List Char).length →
        0 < (stripStep ['a'] initState 0).2.1 ∧
        ((stripStep ['a'] initState 0).2.1 = 0 + 1 ∨
          ((stripStep ['a'] initState 0).2.1 = 0 + 2 ∧
            0 + 1 < (['a'] : List Char).length))) ∧
      (¬0 < (['a'] : List Char).length → 0 = (['a'] : List Char).length)) :=
  ⟨Reaches.init, cursor_monotone_bounded ['a'] initState 0 Reaches.init⟩

/-- Claim C8: strip is total — over any finite buffer the index-based loop
runs to completion within `length` iterations, so any fuel of at least the
buffer length yields the same final output, with no error for malformed
inputs such as unterminated literals or comments. -/
theorem strip_comments_total (x : String) (fuel : Nat)
    (h : x.data.length ≤ fuel) :
    stripRun x.data fuel initState 0 = (strip_comments x).data := by
  rw [stripRun_eq_stripLoop fuel x.data initState 0 (by omega),
    List.drop_zero]
  rfl

/-- Claim C8 witness: the scan of `a//b` (with its unterminated trailing
line comment) completes with any sufficient fuel. -/
theorem strip_comments_total_witness :
    ("a//b".data.length ≤ 9) ∧
      stripRun ("a//b".data) 9 initState 0 = (strip_comments "a//b").data :=
  ⟨by decide, strip_comments_total "a//b" 9 (by decide)⟩

end StripComments
